import Mathlib

/-!
Verification development for the ml-notebooks repository.

The repository holds two notebooks:

* `notebooks/preprocessing.ipynb` — loads the Pokemon CSV, shuffles and splits
  it 75/25, builds three parallel feature sets (raw copy, min-max normalized,
  z-score standardized), trains one fixed classifier per set and prints
  accuracies.
* `notebooks/hyperparameter_search.ipynb` — runs a hyperas/hyperopt search and
  finally tries to pickle the trial history inside a `try`/`except` block.

This file shallowly embeds the algorithmic content of those notebooks.
Matrix entries are real numbers; the one place where IEEE-754 float semantics
is observable — division producing NaN or ±infinity, subsequently rewritten by
`np.nan_to_num` — is modelled explicitly by the `NpVal` type below.
-/

noncomputable section

open Classical

/-- Result of a floating-point division before `np.nan_to_num` is applied:
either a finite value or one of the three non-finite IEEE-754 outcomes. -/
inductive NpVal where
  | fin : ℝ → NpVal
  | pinf : NpVal
  | ninf : NpVal
  | nan : NpVal
deriving DecidableEq

/-- IEEE-754 division of two finite values (rounding ignored): a zero divisor
yields NaN for a zero numerator and ±infinity otherwise. -/
def ieeeDiv (num den : ℝ) : NpVal :=
  if den = 0 then
    if num = 0 then NpVal.nan else if 0 < num then NpVal.pinf else NpVal.ninf
  else NpVal.fin (num / den)

/-- Largest finite IEEE-754 double, `(2 - 2^-52) * 2^1023`; `np.nan_to_num`
substitutes it for +infinity. -/
def floatMax : ℝ := 2 ^ 1024 - 2 ^ 971

/-- `np.nan_to_num` on one value: NaN becomes 0, ±infinity becomes ±`floatMax`,
finite values pass through. -/
def nan_to_num : NpVal → ℝ
  | NpVal.fin x => x
  | NpVal.pinf => floatMax
  | NpVal.ninf => -floatMax
  | NpVal.nan => 0

/-- A feature matrix: a list of rows of real entries. -/
abbrev Mat := List (List ℝ)

/-- Entry `(i, j)` of a matrix (out-of-range reads default to 0). -/
def entry (X : Mat) (i j : ℕ) : ℝ := (X.getD i []).getD j 0

/-- Smallest element of a list (0 on the empty list, where `np.min` would
raise instead). -/
def listMin : List ℝ → ℝ
  | [] => 0
  | x :: xs => xs.foldl min x

/-- Largest element of a list (0 on the empty list, where `np.max` would
raise instead). -/
def listMax : List ℝ → ℝ
  | [] => 0
  | x :: xs => xs.foldl max x

/-- `np.min` over a whole matrix: global scalar minimum of all entries. -/
def npMin (X : Mat) : ℝ := listMin X.flatten

/-- `np.max` over a whole matrix: global scalar maximum of all entries. -/
def npMax (X : Mat) : ℝ := listMax X.flatten

/-- The min-max ("regularization") transform of the preprocessing notebook:
`np.nan_to_num((X - np.min(train_X)) / (np.max(train_X) - np.min(train_X)))`,
with the scalar statistics taken from `train` and applied entrywise to `X`. -/
def min_max_scale (train X : Mat) : Mat :=
  X.map fun r =>
    r.map fun x => nan_to_num (ieeeDiv (x - npMin train) (npMax train - npMin train))

/-- Column `j` of a matrix, as read by numpy's axis-0 reductions. -/
def colList (X : Mat) (j : ℕ) : List ℝ := X.map fun r => r.getD j 0

/-- `np.mean(X, axis=0)` at feature `j`: column sum over number of rows. -/
def colMean (X : Mat) (j : ℕ) : ℝ := (colList X j).sum / (X.length : ℝ)

/-- Population variance of feature `j`, the quantity under the square root in
`np.std(X, axis=0)`. -/
def colVar (X : Mat) (j : ℕ) : ℝ :=
  ((colList X j).map fun x => (x - colMean X j) ^ 2).sum / (X.length : ℝ)

/-- `np.std(X, axis=0)` at feature `j`: square root of the population
variance. -/
def colStd (X : Mat) (j : ℕ) : ℝ := Real.sqrt (colVar X j)

/-- One entry of the z-score transform: subtract the train mean of feature `j`
and divide by the train standard deviation, then `np.nan_to_num`. -/
def stdEntry (train : Mat) (j : ℕ) (x : ℝ) : ℝ :=
  nan_to_num (ieeeDiv (x - colMean train j) (colStd train j))

/-- The feature-standardization transform of the preprocessing notebook:
`np.nan_to_num((X - np.mean(train_X, axis=0)) / np.std(train_X, axis=0))`,
per-feature statistics from `train` broadcast across the rows of `X`. -/
def standardize (train X : Mat) : Mat :=
  X.map fun r => r.enum.map fun p => stdEntry train p.1 p.2

/-- `np.copy`: a fresh array holding the same values. -/
def np_copy (X : Mat) : Mat := X

/-- The variables of the preprocessing cell (notebook lines 130-147): the
split produced by the loader plus the three derived train/test pairs. -/
structure PreState where
  train_X : Mat
  test_X : Mat
  train_X_base : Mat
  test_X_base : Mat
  train_X_norm : Mat
  test_X_norm : Mat
  train_X_std : Mat
  test_X_std : Mat

/-- The preprocessing cell, assignment by assignment: copy the raw split,
min-max scale both splits with `train_X`'s scalar min/max, copy again, then
overwrite the copies with the z-score transform using `train_X`'s per-feature
mean and standard deviation. -/
def runPreprocessingCell (s : PreState) : PreState :=
  let s1 := { s with train_X_base := np_copy s.train_X }
  let s2 := { s1 with test_X_base := np_copy s1.test_X }
  let s3 := { s2 with train_X_norm := min_max_scale s2.train_X s2.train_X }
  let s4 := { s3 with test_X_norm := min_max_scale s3.train_X s3.test_X }
  let s5 := { s4 with train_X_std := np_copy s4.train_X }
  let s6 := { s5 with test_X_std := np_copy s5.test_X }
  let s7 := { s6 with train_X_std := standardize s6.train_X s6.train_X_std }
  { s7 with test_X_std := standardize s7.train_X s7.test_X_std }

/-- `sklearn.utils.shuffle` reorders its arguments by one permutation derived
deterministically from `random_state`; this applies that permutation, given as
the list of source indices in their new order. -/
def applyPerm {α : Type} (perm : List ℕ) (xs : List α) : List α :=
  perm.filterMap fun i => xs[i]?

/-- The loader's shuffle-and-split (notebook lines 102-108): shuffle features
and labels with the same seed-derived permutation, set
`split = math.floor(len(labels) * 0.75)` and slice both lists at that point. -/
def train_test_split {α β : Type} (perm : List ℕ) (features : List α)
    (labels : List β) : (List α × List β) × (List α × List β) :=
  let f := applyPerm perm features
  let l := applyPerm perm labels
  let k := (⌊(l.length : ℚ) * (3 / 4)⌋).toNat
  ((f.take k, l.take k), (f.drop k, l.drop k))

/-- The number of distinct labels: the size of `set(labels)`, from which the
loader builds its label-to-integer mapping. -/
def numDistinct (labels : List String) : ℕ := labels.dedup.length

/-- Largest class index in a label list; keras `to_categorical` without an
explicit class count one-hot encodes into `max + 1` columns. -/
def natListMax (ys : List ℕ) : ℕ := ys.foldr max 0

/-- One-hot row of width `n` with the 1 at position `k`. -/
def oneHot (n k : ℕ) : List ℝ := (List.range n).map fun j => if j = k then 1 else 0

/-- `keras.utils.np_utils.to_categorical` on a list of integer class indices:
one one-hot row per index, width `max + 1`. -/
def to_categorical (ys : List ℕ) : List (List ℝ) :=
  ys.map (oneHot (natListMax ys + 1))

/-- Index of the first occurrence of `a` (length of the list when absent). -/
def firstIdxOf (a : ℝ) : List ℝ → ℕ
  | [] => 0
  | x :: xs => if x = a then 0 else firstIdxOf a xs + 1

/-- `np.argmax` on a vector: the index of the first maximal entry. -/
def np_argmax (l : List ℝ) : ℕ := firstIdxOf (listMax l) l

/-- A keras layer as far as this embedding needs it: a dense layer with its
unit count and activation, or a dropout layer with its rate. -/
inductive Layer where
  | dense : ℕ → String → Layer
  | dropout : ℝ → Layer

/-- A compiled sequential model: input width, layer stack, loss, optimizer. -/
structure KModel where
  inputDim : ℕ
  layers : List Layer
  loss : String
  optimizer : String

/-- `get_model` from the preprocessing notebook (lines 176-184): Dense(128,
relu), Dropout(0.5), Dense(64, relu), Dropout(0.5), Dense(18, softmax),
compiled with categorical crossentropy and rmsprop. -/
def get_model (num_inputs : ℕ) : KModel :=
  { inputDim := num_inputs
    layers := [Layer.dense 128 "relu", Layer.dropout 0.5,
               Layer.dense 64 "relu", Layer.dropout 0.5,
               Layer.dense 18 "softmax"]
    loss := "categorical_crossentropy"
    optimizer := "rmsprop" }

/-- Unit count of a model's output layer: the units of its last dense layer. -/
def outputUnits (m : KModel) : ℕ :=
  (m.layers.reverse.findSome? fun l =>
    match l with
    | Layer.dense u _ => some u
    | Layer.dropout _ => none).getD 0

/-- A Python exception as (type name, message). -/
abbrev PyExc := String × String

/-- Module-level names bound in the search notebook when its `try` block runs
(imports of cell 1 plus the assignments of cell 10). `e` is not among them. -/
def cell10Scope : List String :=
  ["pickle", "pprint", "mnist", "to_categorical", "Sequential", "Dense",
   "Dropout", "Activation", "Trials", "STATUS_OK", "tpe", "optim", "choice",
   "uniform", "conditional", "data", "model", "trials", "best_run", "foo"]

/-- Python name resolution for the expression of an `except` clause: an
unbound name raises NameError at the moment the clause is evaluated. -/
def evalExceptClauseName (scope : List String) (n : String) : Except PyExc String :=
  if n ∈ scope then Except.ok n
  else Except.error ("NameError", "name " ++ "'" ++ n ++ "'" ++ " is not defined")

/-- The trial-history save of the search notebook:
`try: pickle.dump(...)` followed by `except e: print(e)`. If the dump
succeeds the handler never runs. If the dump raises, Python evaluates the
handler expression `e`; since `e` is unbound this raises NameError, which
replaces the original exception. (Were `e` bound to a matching exception
class, the handler body would print and execution would continue — that branch
is unreachable in the notebook.) Returns the block's outcome together with
the lines it printed. -/
def trySaveTrials (dump : Except PyExc Unit) : Except PyExc (List String) :=
  match dump with
  | Except.ok _ => Except.ok []
  | Except.error exc =>
    match evalExceptClauseName cell10Scope "e" with
    | Except.error ne => Except.error ne
    | Except.ok _ => Except.ok [exc.2]

/-! ### Helper lemmas about list minima and maxima -/

theorem foldl_min_le_init (xs : List ℝ) : ∀ a : ℝ, xs.foldl min a ≤ a := by
  induction xs with
  | nil => intro a; simp
  | cons x t ih => intro a; exact (ih (min a x)).trans (min_le_left a x)

theorem foldl_min_le_mem (xs : List ℝ) :
    ∀ (a x : ℝ), x ∈ xs → xs.foldl min a ≤ x := by
  induction xs with
  | nil => intro a x hx; cases hx
  | cons y t ih =>
    intro a x hx
    rcases List.mem_cons.mp hx with rfl | hx
    · exact (foldl_min_le_init t (min a x)).trans (min_le_right a x)
    · exact ih (min a y) x hx

theorem foldl_min_mem (xs : List ℝ) :
    ∀ a : ℝ, xs.foldl min a = a ∨ xs.foldl min a ∈ xs := by
  induction xs with
  | nil => intro a; exact Or.inl rfl
  | cons y t ih =>
    intro a
    rcases ih (min a y) with h | h
    · rcases min_choice a y with hm | hm
      · exact Or.inl (by rw [List.foldl_cons, h, hm])
      · exact Or.inr (by rw [List.foldl_cons, h, hm]; exact List.mem_cons_self y t)
    · exact Or.inr (List.mem_cons_of_mem y h)

theorem init_le_foldl_max (xs : List ℝ) : ∀ a : ℝ, a ≤ xs.foldl max a := by
  induction xs with
  | nil => intro a; simp
  | cons x t ih => intro a; exact (le_max_left a x).trans (ih (max a x))

theorem mem_le_foldl_max (xs : List ℝ) :
    ∀ (a x : ℝ), x ∈ xs → x ≤ xs.foldl max a := by
  induction xs with
  | nil => intro a x hx; cases hx
  | cons y t ih =>
    intro a x hx
    rcases List.mem_cons.mp hx with rfl | hx
    · exact (le_max_right a x).trans (init_le_foldl_max t (max a x))
    · exact ih (max a y) x hx

theorem foldl_max_mem (xs : List ℝ) :
    ∀ a : ℝ, xs.foldl max a = a ∨ xs.foldl max a ∈ xs := by
  induction xs with
  | nil => intro a; exact Or.inl rfl
  | cons y t ih =>
    intro a
    rcases ih (max a y) with h | h
    · rcases max_choice a y with hm | hm
      · exact Or.inl (by rw [List.foldl_cons, h, hm])
      · exact Or.inr (by rw [List.foldl_cons, h, hm]; exact List.mem_cons_self y t)
    · exact Or.inr (List.mem_cons_of_mem y h)

theorem listMin_le (l : List ℝ) (x : ℝ) (hx : x ∈ l) : listMin l ≤ x := by
  cases l with
  | nil => cases hx
  | cons y t =>
    rcases List.mem_cons.mp hx with rfl | hx
    · exact foldl_min_le_init t x
    · exact foldl_min_le_mem t y x hx

theorem le_listMax (l : List ℝ) (x : ℝ) (hx : x ∈ l) : x ≤ listMax l := by
  cases l with
  | nil => cases hx
  | cons y t =>
    rcases List.mem_cons.mp hx with rfl | hx
    · exact init_le_foldl_max t x
    · exact mem_le_foldl_max t y x hx

theorem listMin_mem (l : List ℝ) (h : l ≠ []) : listMin l ∈ l := by
  cases l with
  | nil => exact absurd rfl h
  | cons y t =>
    rcases foldl_min_mem t y with hm | hm
    · rw [listMin, hm]; exact List.mem_cons_self y t
    · exact List.mem_cons_of_mem y hm

theorem listMax_mem (l : List ℝ) (h : l ≠ []) : listMax l ∈ l := by
  cases l with
  | nil => exact absurd rfl h
  | cons y t =>
    rcases foldl_max_mem t y with hm | hm
    · rw [listMax, hm]; exact List.mem_cons_self y t
    · exact List.mem_cons_of_mem y hm

theorem listMin_le_listMax (l : List ℝ) (h : l ≠ []) : listMin l ≤ listMax l :=
  (listMin_le l (listMax l) (listMax_mem l h))

theorem foldl_min_map_mono (g : ℝ → ℝ) (hg : Monotone g) (l : List ℝ) :
    ∀ a : ℝ, (l.map g).foldl min (g a) = g (l.foldl min a) := by
  induction l with
  | nil => intro a; rfl
  | cons x t ih => intro a; simpa [hg.map_min] using ih (min a x)

theorem foldl_max_map_mono (g : ℝ → ℝ) (hg : Monotone g) (l : List ℝ) :
    ∀ a : ℝ, (l.map g).foldl max (g a) = g (l.foldl max a) := by
  induction l with
  | nil => intro a; rfl
  | cons x t ih => intro a; simpa [hg.map_max] using ih (max a x)

theorem listMin_map_mono (g : ℝ → ℝ) (hg : Monotone g) (l : List ℝ) (h : l ≠ []) :
    listMin (l.map g) = g (listMin l) := by
  cases l with
  | nil => exact absurd rfl h
  | cons x t => simpa [listMin] using foldl_min_map_mono g hg t x

theorem listMax_map_mono (g : ℝ → ℝ) (hg : Monotone g) (l : List ℝ) (h : l ≠ []) :
    listMax (l.map g) = g (listMax l) := by
  cases l with
  | nil => exact absurd rfl h
  | cons x t => simpa [listMax] using foldl_max_map_mono g hg t x

theorem listMin_all_eq (l : List ℝ) (c : ℝ) (h : l ≠ []) (hc : ∀ x ∈ l, x = c) :
    listMin l = c :=
  hc _ (listMin_mem l h)

theorem listMax_all_eq (l : List ℝ) (c : ℝ) (h : l ≠ []) (hc : ∀ x ∈ l, x = c) :
    listMax l = c :=
  hc _ (listMax_mem l h)

/-! ### Helper lemmas about sums -/

theorem sum_map_div (l : List ℝ) (f : ℝ → ℝ) (d : ℝ) :
    (l.map fun x => f x / d).sum = (l.map f).sum / d := by
  induction l with
  | nil => simp
  | cons x t ih => simp [ih, div_add_div_same]

theorem sum_map_sub (l : List ℝ) (c : ℝ) :
    (l.map fun x => x - c).sum = l.sum - (l.length : ℝ) * c := by
  induction l with
  | nil => simp
  | cons x t ih => simp [ih]; ring

theorem sum_map_sq_nonneg (l : List ℝ) (c : ℝ) :
    0 ≤ (l.map fun x => (x - c) ^ 2).sum :=
  List.sum_nonneg (by
    intro y hy
    rcases List.mem_map.mp hy with ⟨x, _, rfl⟩
    exact sq_nonneg _)

theorem sum_map_sq_eq_zero (l : List ℝ) (c : ℝ)
    (h : (l.map fun x => (x - c) ^ 2).sum = 0) : ∀ x ∈ l, x = c := by
  induction l with
  | nil => intro x hx; cases hx
  | cons y t ih =>
    intro x hx
    have hsum : (y - c) ^ 2 + ((t.map fun x => (x - c) ^ 2).sum) = 0 := by
      simpa using h
    have h1 : (y - c) ^ 2 = 0 ∧ ((t.map fun x => (x - c) ^ 2).sum) = 0 := by
      constructor
      · nlinarith [sq_nonneg (y - c), sum_map_sq_nonneg t c]
      · nlinarith [sq_nonneg (y - c), sum_map_sq_nonneg t c]
    rcases List.mem_cons.mp hx with rfl | hx
    · have := pow_eq_zero_iff (n := 2) (by norm_num) |>.mp h1.1
      linarith [sub_eq_zero.mp this]
    · exact ih h1.2 x hx

/-! ### Helper lemmas about matrix access -/

theorem entry_mem_flatten (X : Mat) (i j : ℕ) (hi : i < X.length)
    (hj : j < (X.getD i []).length) : entry X i j ∈ X.flatten := by
  rw [entry, List.getD_eq_getElem X [] hi] at *
  rw [List.getD_eq_getElem _ 0 hj]
  exact List.mem_flatten.mpr ⟨X[i], List.getElem_mem hi, List.getElem_mem hj⟩

theorem entry_map_rows (g : ℝ → ℝ) (X : Mat) (i j : ℕ) (hi : i < X.length)
    (hj : j < (X.getD i []).length) :
    entry (X.map fun r => r.map g) i j = g (entry X i j) := by
  rw [entry, entry, List.getD_eq_getElem X [] hi] at *
  have hi' : i < (X.map fun r => r.map g).length := by simpa using hi
  rw [List.getD_eq_getElem _ [] hi', List.getElem_map]
  have hj' : j < (X[i].map g).length := by simpa using hj
  rw [List.getD_eq_getElem _ 0 hj', List.getElem_map, List.getD_eq_getElem _ 0 hj]

theorem entry_minmax (train X : Mat) (i j : ℕ) (hi : i < X.length)
    (hj : j < (X.getD i []).length) :
    entry (min_max_scale train X) i j =
      nan_to_num (ieeeDiv (entry X i j - npMin train) (npMax train - npMin train)) :=
  entry_map_rows _ X i j hi hj

theorem entry_enum_rows (g : ℕ → ℝ → ℝ) (X : Mat) (i j : ℕ) (hi : i < X.length)
    (hj : j < (X.getD i []).length) :
    entry (X.map fun r => r.enum.map fun p => g p.1 p.2) i j = g j (entry X i j) := by
  rw [entry, entry, List.getD_eq_getElem X [] hi] at *
  have hi' : i < (X.map fun r => r.enum.map fun p => g p.1 p.2).length := by simpa using hi
  rw [List.getD_eq_getElem _ [] hi', List.getElem_map]
  have hj' : j < (X[i].enum.map fun p => g p.1 p.2).length := by
    simpa [List.enum_length] using hj
  rw [List.getD_eq_getElem _ 0 hj', List.getD_eq_getElem _ 0 hj]
  simp [List.getElem_map, List.enum_eq_zip_range, List.getElem_zip]

theorem entry_standardize (train X : Mat) (i j : ℕ) (hi : i < X.length)
    (hj : j < (X.getD i []).length) :
    entry (standardize train X) i j = stdEntry train j (entry X i j) :=
  entry_enum_rows _ X i j hi hj

theorem entry_mem_colList (X : Mat) (i j : ℕ) (hi : i < X.length) :
    entry X i j ∈ colList X j := by
  rw [entry, List.getD_eq_getElem X [] hi]
  exact List.mem_map.mpr ⟨X[i], List.getElem_mem hi, rfl⟩

/-! ### Helper lemmas about column statistics -/

theorem colList_length (X : Mat) (j : ℕ) : (colList X j).length = X.length := by
  simp [colList]

theorem colVar_nonneg (X : Mat) (j : ℕ) : 0 ≤ colVar X j :=
  div_nonneg (sum_map_sq_nonneg _ _) (by positivity)

theorem colVar_eq_zero (X : Mat) (j : ℕ) (h : colVar X j = 0) :
    ∀ x ∈ colList X j, x = colMean X j := by
  cases hX : X with
  | nil => intro x hx; simp [colList, hX] at hx
  | cons r t =>
    have hlen : (0 : ℝ) < (X.length : ℝ) := by
      rw [hX]; exact_mod_cast Nat.succ_pos t.length
    have hsum : ((colList X j).map fun x => (x - colMean X j) ^ 2).sum = 0 := by
      rw [colVar] at h
      rcases div_eq_zero_iff.mp h with hs | hz
      · exact hs
      · exfalso; rw [hX] at hz; simp at hz
        have ht : (0 : ℝ) ≤ (t.length : ℝ) := Nat.cast_nonneg _
        linarith
    rw [← hX]
    exact sum_map_sq_eq_zero _ _ hsum

theorem colMean_sum (X : Mat) (j : ℕ) (h : X ≠ []) :
    (colList X j).sum = (X.length : ℝ) * colMean X j := by
  have hlen : ((X.length : ℝ)) ≠ 0 := by
    have h0 : X.length ≠ 0 := fun h0 => h (List.length_eq_zero.mp h0)
    exact_mod_cast h0
  rw [colMean, mul_div_cancel₀ _ hlen]

/-! ### Evaluation lemmas for `ieeeDiv` and `nan_to_num` -/

theorem nan_to_num_div_of_ne (num den : ℝ) (h : den ≠ 0) :
    nan_to_num (ieeeDiv num den) = num / den := by
  rw [ieeeDiv, if_neg h, nan_to_num]

theorem ieeeDiv_self_zero : ieeeDiv 0 0 = NpVal.nan := by
  rw [ieeeDiv, if_pos rfl, if_pos rfl]

theorem ieeeDiv_pos_zero (num : ℝ) (h : 0 < num) : ieeeDiv num 0 = NpVal.pinf := by
  rw [ieeeDiv, if_pos rfl, if_neg h.ne', if_pos h]

theorem ieeeDiv_neg_zero (num : ℝ) (h : num < 0) : ieeeDiv num 0 = NpVal.ninf := by
  rw [ieeeDiv, if_pos rfl, if_neg h.ne, if_neg (not_lt.mpr h.le)]

theorem floatMax_pos : 0 < floatMax := by
  rw [floatMax]
  have : (2 : ℝ) ^ 971 < 2 ^ 1024 := by
    apply pow_lt_pow_right₀ (by norm_num) (by norm_num)
  linarith

/-! ### Helper lemmas about transformed rows and columns -/

theorem row_enum_getD (g : ℕ → ℝ → ℝ) (r : List ℝ) (j : ℕ) (hj : j < r.length) :
    ((r.enum.map fun p => g p.1 p.2)).getD j 0 = g j (r.getD j 0) := by
  have hj' : j < (r.enum.map fun p => g p.1 p.2).length := by
    simpa [List.enum_length] using hj
  rw [List.getD_eq_getElem _ 0 hj', List.getD_eq_getElem _ 0 hj]
  simp [List.getElem_map, List.enum_eq_zip_range, List.getElem_zip]

theorem colList_standardize (T X : Mat) (n j : ℕ) (hR : ∀ r ∈ X, r.length = n)
    (hj : j < n) :
    colList (standardize T X) j = (colList X j).map (stdEntry T j) := by
  rw [colList, standardize, List.map_map, colList, List.map_map]
  apply List.map_congr_left
  intro r hr
  simpa using row_enum_getD (stdEntry T) r j (by rw [hR r hr]; exact hj)

theorem standardize_length (T X : Mat) : (standardize T X).length = X.length := by
  simp [standardize]

theorem flatten_map_rows (g : ℝ → ℝ) (X : Mat) :
    (X.map fun r => r.map g).flatten = X.flatten.map g :=
  (List.map_flatten g X).symm

/-! ### Claim theorems -/

/-- C1: the claim says a serialization failure while pickling the trial
history is caught, its message printed, and execution continues. The code's
handler is `except e: print(e)` with `e` unbound, so on any dump failure
Python evaluates the unbound name `e`, raises NameError, prints nothing, and
terminates abnormally; only the no-failure path continues. The claim matches
the evident intent (`except Exception as e`), so the code is the bug. -/
theorem C1_save_failure_terminates :
    (∀ exc : PyExc, trySaveTrials (Except.error exc) =
      Except.error ("NameError", "name " ++ "'" ++ "e" ++ "'" ++ " is not defined")) ∧
    trySaveTrials (Except.ok ()) = Except.ok [] := by
  constructor
  · intro exc; rfl
  · rfl

/-- C5: the statistics used to transform the test split are computed from the
training matrix alone: for each transform there is one entrywise map, fully
determined by `train`, that produces the transform of every input matrix —
train or test — so no test value influences the applied statistics. -/
theorem C5_train_stats_only (train : Mat) :
    ∃ f : ℝ → ℝ, ∃ g : ℕ → ℝ → ℝ,
      (∀ X : Mat, min_max_scale train X = X.map fun r => r.map f) ∧
      (∀ X : Mat, standardize train X = X.map fun r => r.enum.map fun p => g p.1 p.2) :=
  ⟨fun x => nan_to_num (ieeeDiv (x - npMin train) (npMax train - npMin train)),
   stdEntry train, fun _ => rfl, fun _ => rfl⟩

/-- C8 (counterexample): the claim says the softmax output layer has as many
units as the dataset's label cardinality; for a dataset with two distinct
labels the model factory still emits 18 units. -/
theorem C8_cex : outputUnits (get_model 6) ≠ numDistinct ["Grass", "Water"] := by
  have h18 : outputUnits (get_model 6) = 18 := rfl
  have h2 : numDistinct ["Grass", "Water"] = 2 := by decide
  rw [h18, h2]
  decide

/-- C8 (amended): the model factory hard-codes an 18-unit softmax output
layer for every dataset; that count equals the label cardinality exactly when
the dataset has 18 distinct labels (as the Pokemon dataset does). -/
theorem C8_amended (num_inputs : ℕ) (labels : List String) :
    outputUnits (get_model num_inputs) = 18 ∧
    (outputUnits (get_model num_inputs) = numDistinct labels ↔ numDistinct labels = 18) := by
  have h18 : outputUnits (get_model num_inputs) = 18 := rfl
  exact ⟨h18, by rw [h18]; exact ⟨fun h => h.symm, fun h => h.symm⟩⟩

/-- C9: the preprocessing cell never mutates its inputs: after building the
base copies, the min-max pair and the standardized pair, the original
`train_X` and `test_X` still hold their initial values (and the base copies
equal them). -/
theorem C9_frame (s : PreState) :
    (runPreprocessingCell s).train_X = s.train_X ∧
    (runPreprocessingCell s).test_X = s.test_X ∧
    (runPreprocessingCell s).train_X_base = s.train_X ∧
    (runPreprocessingCell s).test_X_base = s.test_X :=
  ⟨rfl, rfl, rfl, rfl⟩

theorem applyPerm_length {α : Type} (perm : List ℕ) (xs : List α)
    (h : ∀ i ∈ perm, i < xs.length) : (applyPerm perm xs).length = perm.length := by
  induction perm with
  | nil => rfl
  | cons i t ih =>
    rw [applyPerm, List.filterMap_cons,
      List.getElem?_eq_getElem (h i (List.mem_cons_self i t))]
    have := ih fun i hi => h i (List.mem_cons_of_mem _ hi)
    rw [applyPerm] at this
    simp [this]

/-- C4: shuffling an 800-row input with the seed-determined permutation and
splitting positionally at `floor(800 * 0.75)` always yields 600 training and
200 testing rows, and the split is a function of the input and the
permutation, so two invocations with the same seed agree exactly. -/
theorem C4_split {α β : Type} (perm : List ℕ) (features : List α) (labels : List β)
    (hp : List.Perm perm (List.range 800))
    (hf : features.length = 800) (hl : labels.length = 800) :
    ((train_test_split perm features labels).1.1.length = 600 ∧
     (train_test_split perm features labels).1.2.length = 600 ∧
     (train_test_split perm features labels).2.1.length = 200 ∧
     (train_test_split perm features labels).2.2.length = 200) ∧
    train_test_split perm features labels = train_test_split perm features labels := by
  have hmem : ∀ i ∈ perm, i < 800 := by
    intro i hi
    simpa [List.mem_range] using hp.mem_iff.mp hi
  have hplen : perm.length = 800 := by simpa using hp.length_eq
  have hfl : (applyPerm perm features).length = 800 := by
    rw [applyPerm_length _ _ fun i hi => by rw [hf]; exact hmem i hi, hplen]
  have hll : (applyPerm perm labels).length = 800 := by
    rw [applyPerm_length _ _ fun i hi => by rw [hl]; exact hmem i hi, hplen]
  have hk : ((⌊(((applyPerm perm labels).length : ℕ) : ℚ) * (3 / 4)⌋).toNat) = 600 := by
    rw [hll]; norm_num; rfl
  refine ⟨⟨?_, ?_, ?_, ?_⟩, rfl⟩ <;>
    simp only [train_test_split, hk] <;>
    simp [hfl, hll]

/-- C4 (witness): the split theorem instantiated at a concrete 800-row
input with the identity permutation. -/
theorem C4_wit :
    ((train_test_split (List.range 800) (List.range 800) (List.range 800)).1.1.length = 600 ∧
     (train_test_split (List.range 800) (List.range 800) (List.range 800)).1.2.length = 600 ∧
     (train_test_split (List.range 800) (List.range 800) (List.range 800)).2.1.length = 200 ∧
     (train_test_split (List.range 800) (List.range 800) (List.range 800)).2.2.length = 200) ∧
    train_test_split (List.range 800) (List.range 800) (List.range 800) =
      train_test_split (List.range 800) (List.range 800) (List.range 800) :=
  C4_split (List.range 800) (List.range 800) (List.range 800)
    (List.Perm.refl _) (by simp) (by simp)

theorem foldl_max_of_le (l : List ℝ) : ∀ a : ℝ, (∀ y ∈ l, y ≤ a) → l.foldl max a = a := by
  induction l with
  | nil => intro a _; rfl
  | cons x t ih =>
    intro a h
    rw [List.foldl_cons, max_eq_left (h x (List.mem_cons_self x t))]
    exact ih a fun y hy => h y (List.mem_cons_of_mem x hy)

theorem oneHot_decomp (n k : ℕ) (h : k < n) :
    oneHot n k = List.replicate k 0 ++ 1 :: List.replicate (n - k - 1) 0 := by
  induction k generalizing n with
  | zero =>
    cases n with
    | zero => exact absurd h (lt_irrefl 0)
    | succ m =>
      rw [oneHot, List.range_succ_eq_map, List.map_cons, List.map_map]
      have hmap : ∀ j ∈ List.range m,
          ((fun j => if j = 0 then (1:ℝ) else 0) ∘ (· + 1)) j = (fun _ => (0:ℝ)) j := by
        intro j _; simp [Function.comp]
      rw [List.map_congr_left hmap, List.map_const', List.length_range]
      simp
  | succ k ih =>
    cases n with
    | zero => exact absurd h (Nat.not_lt_zero _)
    | succ m =>
      have hk : k < m := Nat.succ_lt_succ_iff.mp h
      rw [oneHot, List.range_succ_eq_map, List.map_cons, List.map_map]
      have hmap : ∀ j ∈ List.range m,
          ((fun j => if j = k + 1 then (1:ℝ) else 0) ∘ (· + 1)) j =
            (fun j => if j = k then (1:ℝ) else 0) j := by
        intro j _; simp [Function.comp]
      rw [List.map_congr_left hmap]
      have ih' := ih m hk
      rw [oneHot] at ih'
      rw [ih']
      simp [List.replicate_succ, Nat.succ_sub_succ]

theorem listMax_oneHot_decomp (k m : ℕ) :
    listMax (List.replicate k (0:ℝ) ++ 1 :: List.replicate m 0) = 1 := by
  cases k with
  | zero =>
    rw [List.replicate, List.nil_append, listMax]
    exact foldl_max_of_le _ 1 fun y hy => by rw [List.eq_of_mem_replicate hy]; norm_num
  | succ s =>
    rw [List.replicate_succ, List.cons_append, listMax, List.foldl_append]
    have h1 : (List.replicate s (0:ℝ)).foldl max 0 = 0 :=
      foldl_max_of_le _ 0 fun y hy => le_of_eq (List.eq_of_mem_replicate hy)
    rw [h1, List.foldl_cons, max_eq_right zero_le_one]
    exact foldl_max_of_le _ 1 fun y hy => by rw [List.eq_of_mem_replicate hy]; norm_num

theorem firstIdxOf_decomp (k m : ℕ) :
    firstIdxOf 1 (List.replicate k (0:ℝ) ++ 1 :: List.replicate m 0) = k := by
  induction k with
  | zero => simp [firstIdxOf]
  | succ s ih =>
    rw [List.replicate_succ, List.cons_append]
    simp only [firstIdxOf]
    rw [if_neg (by norm_num : ¬ (0:ℝ) = 1), ih]

theorem np_argmax_oneHot (n k : ℕ) (h : k < n) : np_argmax (oneHot n k) = k := by
  rw [np_argmax, oneHot_decomp n k h, listMax_oneHot_decomp, firstIdxOf_decomp]

theorem mem_le_natListMax (ys : List ℕ) (k : ℕ) (hk : k ∈ ys) : k ≤ natListMax ys := by
  induction ys with
  | nil => cases hk
  | cons y t ih =>
    rw [natListMax, List.foldr_cons]
    rcases List.mem_cons.mp hk with rfl | hk
    · exact le_max_left _ _
    · exact le_trans (ih hk) (le_max_right _ _)

/-- C10: one-hot encoding a class index with `to_categorical` and taking
`np.argmax` of the resulting row recovers the index, for every row of every
encoded label list. -/
theorem C10_round_trip (ys : List ℕ) (i : ℕ) (h : i < ys.length) :
    np_argmax ((to_categorical ys).getD i []) = ys.getD i 0 := by
  rw [to_categorical]
  have hi' : i < (ys.map (oneHot (natListMax ys + 1))).length := by simpa using h
  rw [List.getD_eq_getElem _ [] hi', List.getElem_map, List.getD_eq_getElem _ 0 h]
  exact np_argmax_oneHot _ _
    (Nat.lt_succ_of_le (mem_le_natListMax ys _ (List.getElem_mem h)))

/-- C10 (witness): the round trip at a concrete label list and row. -/
theorem C10_wit : np_argmax ((to_categorical [2, 0, 1]).getD 0 []) = [2, 0, 1].getD 0 0 :=
  C10_round_trip [2, 0, 1] 0 (by norm_num)

/-- C6: min-max scaling a (nonempty) training matrix by its own global min
and max leaves every entry in the closed interval [0, 1]; in particular the
constant-matrix case produces 0 via the NaN-to-zero policy. -/
theorem C6_range (X : Mat) (i j : ℕ) (hi : i < X.length)
    (hj : j < (X.getD i []).length) :
    0 ≤ entry (min_max_scale X X) i j ∧ entry (min_max_scale X X) i j ≤ 1 := by
  rw [entry_minmax X X i j hi hj]
  have hxm : entry X i j ∈ X.flatten := entry_mem_flatten X i j hi hj
  have h1 : npMin X ≤ entry X i j := listMin_le _ _ hxm
  have h2 : entry X i j ≤ npMax X := le_listMax _ _ hxm
  by_cases hden : npMax X - npMin X = 0
  · have hxe : entry X i j = npMin X := by
      have := sub_eq_zero.mp hden
      linarith
    rw [hden, hxe, sub_self, ieeeDiv_self_zero]
    norm_num [nan_to_num]
  · have hlt : 0 < npMax X - npMin X := by
      rcases lt_or_eq_of_le (h1.trans h2) with h | h
      · linarith
      · exact absurd (by rw [h]; ring) hden
    rw [nan_to_num_div_of_ne _ _ hden]
    constructor
    · exact div_nonneg (by linarith) hlt.le
    · rw [div_le_one hlt]; linarith

/-- C6 (witness): the range theorem at a concrete two-row matrix. -/
theorem C6_wit :
    0 ≤ entry (min_max_scale [[(0:ℝ)], [1]] [[(0:ℝ)], [1]]) 0 0 ∧
    entry (min_max_scale [[(0:ℝ)], [1]] [[(0:ℝ)], [1]]) 0 0 ≤ 1 :=
  C6_range [[(0:ℝ)], [1]] 0 0 (by norm_num) (by simp)

/-- C3 (counterexample): the claim says every non-finite division result is
replaced by zero. Scaling test matrix [[2]] with the constant train matrix
[[1],[1]] divides 1 by 0, giving +infinity — and the output entry is
`floatMax`, not zero. -/
theorem C3_cex :
    ieeeDiv (entry [[(2:ℝ)]] 0 0 - npMin [[(1:ℝ)], [1]])
        (npMax [[(1:ℝ)], [1]] - npMin [[(1:ℝ)], [1]]) = NpVal.pinf ∧
    entry (min_max_scale [[(1:ℝ)], [1]] [[(2:ℝ)]]) 0 0 ≠ 0 := by
  have hm : npMin [[(1:ℝ)], [1]] = 1 := by simp [npMin, listMin]
  have hM : npMax [[(1:ℝ)], [1]] = 1 := by simp [npMax, listMax]
  have h2 : entry [[(2:ℝ)]] 0 0 = 2 := by simp [entry]
  have hdiv : ieeeDiv ((2:ℝ) - 1) (1 - 1) = NpVal.pinf := by
    rw [show (2:ℝ) - 1 = 1 by norm_num, show (1:ℝ) - 1 = 0 by norm_num]
    exact ieeeDiv_pos_zero 1 one_pos
  have he : entry (min_max_scale [[(1:ℝ)], [1]] [[(2:ℝ)]]) 0 0 =
      nan_to_num (ieeeDiv (entry [[(2:ℝ)]] 0 0 - npMin [[(1:ℝ)], [1]])
        (npMax [[(1:ℝ)], [1]] - npMin [[(1:ℝ)], [1]])) :=
    entry_minmax _ _ 0 0 (by norm_num) (by simp)
  constructor
  · rw [h2, hm, hM]; exact hdiv
  · rw [he, h2, hm, hM, hdiv]
    simp only [nan_to_num]
    exact floatMax_pos.ne'

/-- C3 (amended): during min-max normalization and standardization the
output entry is `np.nan_to_num` of the division result: a NaN becomes 0, a
+infinity becomes the largest finite float `floatMax` (not zero), a
-infinity becomes `-floatMax`, and a finite quotient passes through — so no
output entry is non-finite, but infinities are not mapped to zero. -/
theorem C3_amended (train X : Mat) (i j : ℕ) (hi : i < X.length)
    (hj : j < (X.getD i []).length) :
    (ieeeDiv (entry X i j - npMin train) (npMax train - npMin train) = NpVal.nan →
      entry (min_max_scale train X) i j = 0) ∧
    (ieeeDiv (entry X i j - npMin train) (npMax train - npMin train) = NpVal.pinf →
      entry (min_max_scale train X) i j = floatMax) ∧
    (ieeeDiv (entry X i j - npMin train) (npMax train - npMin train) = NpVal.ninf →
      entry (min_max_scale train X) i j = -floatMax) ∧
    (∀ y : ℝ, ieeeDiv (entry X i j - npMin train) (npMax train - npMin train) = NpVal.fin y →
      entry (min_max_scale train X) i j = y) ∧
    (ieeeDiv (entry X i j - colMean train j) (colStd train j) = NpVal.nan →
      entry (standardize train X) i j = 0) ∧
    (ieeeDiv (entry X i j - colMean train j) (colStd train j) = NpVal.pinf →
      entry (standardize train X) i j = floatMax) ∧
    (ieeeDiv (entry X i j - colMean train j) (colStd train j) = NpVal.ninf →
      entry (standardize train X) i j = -floatMax) ∧
    (∀ y : ℝ, ieeeDiv (entry X i j - colMean train j) (colStd train j) = NpVal.fin y →
      entry (standardize train X) i j = y) := by
  rw [entry_minmax train X i j hi hj, entry_standardize train X i j hi hj, stdEntry]
  exact ⟨fun h => by rw [h]; rfl, fun h => by rw [h]; rfl, fun h => by rw [h]; rfl,
    fun y h => by rw [h]; rfl, fun h => by rw [h]; rfl, fun h => by rw [h]; rfl,
    fun h => by rw [h]; rfl, fun y h => by rw [h]; rfl⟩

/-- C3 (witness): the amended policy at a concrete input whose division
yields +infinity: the output is `floatMax`. -/
theorem C3_wit : entry (min_max_scale [[(1:ℝ)], [1]] [[(2:ℝ)]]) 0 0 = floatMax := by
  apply (C3_amended [[(1:ℝ)], [1]] [[(2:ℝ)]] 0 0 (by norm_num) (by simp)).2.1
  rw [show entry [[(2:ℝ)]] 0 0 = 2 by simp [entry]]
  rw [show npMin [[(1:ℝ)], [1]] = 1 by simp [npMin, listMin]]
  rw [show npMax [[(1:ℝ)], [1]] = 1 by simp [npMax, listMax]]
  rw [show (2:ℝ) - 1 = 1 by norm_num, show (1:ℝ) - 1 = 0 by norm_num]
  exact ieeeDiv_pos_zero 1 one_pos

/-- C2 (counterexample): the claim says a zero-variance train column
standardizes to all zeros in the TEST output as well. With train [[1],[1]]
(variance 0) and test [[2]], the test entry maps to `floatMax`, not 0. -/
theorem C2_cex :
    colVar [[(1:ℝ)], [1]] 0 = 0 ∧
    entry (standardize [[(1:ℝ)], [1]] [[(2:ℝ)]]) 0 0 ≠ 0 := by
  have hvar : colVar [[(1:ℝ)], [1]] 0 = 0 := by
    norm_num [colVar, colMean, colList]
  refine ⟨hvar, ?_⟩
  have he : entry (standardize [[(1:ℝ)], [1]] [[(2:ℝ)]]) 0 0 =
      stdEntry [[(1:ℝ)], [1]] 0 (entry [[(2:ℝ)]] 0 0) :=
    entry_standardize _ _ 0 0 (by norm_num) (by simp)
  rw [he, stdEntry, colStd, hvar, Real.sqrt_zero]
  rw [show entry [[(2:ℝ)]] 0 0 = 2 by simp [entry]]
  rw [show colMean [[(1:ℝ)], [1]] 0 = 1 by norm_num [colMean, colList]]
  rw [show (2:ℝ) - 1 = 1 by norm_num, ieeeDiv_pos_zero 1 one_pos]
  simp only [nan_to_num]
  exact floatMax_pos.ne'

/-- C2 (amended): if a feature column has zero variance across the training
set, the standardized training column is all zeros (not NaN); in the
standardized test output, an entry equal to the training mean becomes 0,
while an entry above (below) the training mean becomes `floatMax`
(`-floatMax`) — finite, but not zero. -/
theorem C2_amended (train test : Mat) (j : ℕ) (hvar : colVar train j = 0) :
    (∀ i, i < train.length → j < (train.getD i []).length →
      entry (standardize train train) i j = 0) ∧
    (∀ i, i < test.length → j < (test.getD i []).length →
      (entry test i j = colMean train j → entry (standardize train test) i j = 0) ∧
      (colMean train j < entry test i j → entry (standardize train test) i j = floatMax) ∧
      (entry test i j < colMean train j → entry (standardize train test) i j = -floatMax)) := by
  have hstd : colStd train j = 0 := by rw [colStd, hvar, Real.sqrt_zero]
  constructor
  · intro i hi hj
    rw [entry_standardize train train i j hi hj, stdEntry, hstd]
    have hx : entry train i j = colMean train j :=
      colVar_eq_zero train j hvar _ (entry_mem_colList train i j hi)
    rw [hx, sub_self, ieeeDiv_self_zero]; rfl
  · intro i hi hj
    rw [entry_standardize train test i j hi hj, stdEntry, hstd]
    refine ⟨fun h => ?_, fun h => ?_, fun h => ?_⟩
    · rw [h, sub_self, ieeeDiv_self_zero]; rfl
    · rw [ieeeDiv_pos_zero _ (by linarith)]; rfl
    · rw [ieeeDiv_neg_zero _ (by linarith)]; rfl

theorem map_rows_id (X : Mat) (g : ℝ → ℝ) (h : ∀ x ∈ X.flatten, g x = x) :
    (X.map fun r => r.map g) = X := by
  have hrows : ∀ r ∈ X, r.map g = id r := by
    intro r hr
    have : ∀ x ∈ r, g x = x := fun x hx => h x (List.mem_flatten.mpr ⟨r, hr, hx⟩)
    rw [List.map_congr_left this]
    simp
  rw [List.map_congr_left hrows]
  exact List.map_id X

theorem minmax_self_fixed (X : Mat) (hne : X.flatten ≠ []) :
    min_max_scale (min_max_scale X X) (min_max_scale X X) = min_max_scale X X := by
  by_cases hden : npMax X - npMin X = 0
  · have hall : ∀ y ∈ (min_max_scale X X).flatten, y = 0 := by
      intro y hy
      rw [min_max_scale, flatten_map_rows] at hy
      rcases List.mem_map.mp hy with ⟨x, hx, rfl⟩
      have h1 : npMin X ≤ x := listMin_le _ _ hx
      have h2 : x ≤ npMax X := le_listMax _ _ hx
      have hME : npMax X = npMin X := sub_eq_zero.mp hden
      have hx0 : x - npMin X = 0 := by linarith
      rw [hx0, hden, ieeeDiv_self_zero]
      rfl
    have hYne : (min_max_scale X X).flatten ≠ [] := by
      rw [min_max_scale, flatten_map_rows]
      intro h
      exact hne (List.map_eq_nil_iff.mp h)
    have hm0 : npMin (min_max_scale X X) = 0 := listMin_all_eq _ 0 hYne hall
    have hM0 : npMax (min_max_scale X X) = 0 := listMax_all_eq _ 0 hYne hall
    show ((min_max_scale X X).map fun r => r.map fun x =>
        nan_to_num (ieeeDiv (x - npMin (min_max_scale X X))
          (npMax (min_max_scale X X) - npMin (min_max_scale X X)))) = min_max_scale X X
    apply map_rows_id
    intro y hy
    rw [hall y hy, hm0, hM0, sub_zero, ieeeDiv_self_zero]
    rfl
  · have hpos : 0 < npMax X - npMin X := by
      rcases lt_or_eq_of_le (listMin_le_listMax _ hne) with h | h
      · have : npMin X < npMax X := h
        linarith
      · exact absurd (by rw [npMax, npMin, ← h, sub_self]) hden
    have hg : ∀ x : ℝ, nan_to_num (ieeeDiv (x - npMin X) (npMax X - npMin X)) =
        (x - npMin X) / (npMax X - npMin X) := fun x => nan_to_num_div_of_ne _ _ hden
    have hmono : Monotone fun x : ℝ => (x - npMin X) / (npMax X - npMin X) := by
      intro a b hab
      dsimp only
      gcongr
    have hYflat : (min_max_scale X X).flatten =
        X.flatten.map fun x => (x - npMin X) / (npMax X - npMin X) := by
      rw [min_max_scale, flatten_map_rows]
      exact List.map_congr_left fun x _ => hg x
    have hmY : npMin (min_max_scale X X) = 0 := by
      rw [npMin, hYflat, listMin_map_mono _ hmono _ hne,
        show listMin X.flatten = npMin X from rfl, sub_self, zero_div]
    have hMY : npMax (min_max_scale X X) = 1 := by
      rw [npMax, hYflat, listMax_map_mono _ hmono _ hne,
        show listMax X.flatten = npMax X from rfl]
      exact div_self hden
    show ((min_max_scale X X).map fun r => r.map fun x =>
        nan_to_num (ieeeDiv (x - npMin (min_max_scale X X))
          (npMax (min_max_scale X X) - npMin (min_max_scale X X)))) = min_max_scale X X
    apply map_rows_id
    intro y _
    rw [hmY, hMY, sub_zero, sub_zero, nan_to_num_div_of_ne _ _ one_ne_zero, div_one]

theorem standardize_col_self (X : Mat) (n j : ℕ) (hR : ∀ r ∈ X, r.length = n)
    (hj : j < n) :
    ∀ z ∈ colList (standardize X X) j, stdEntry (standardize X X) j z = z := by
  have hcol : colList (standardize X X) j = (colList X j).map (stdEntry X j) :=
    colList_standardize X X n j hR hj
  by_cases hX : X = []
  · intro z hz
    rw [hX] at hz
    simp [colList, standardize] at hz
  · have hlen0 : X.length ≠ 0 := fun h => hX (List.length_eq_zero.mp h)
    have hlenR : ((X.length : ℝ)) ≠ 0 := by exact_mod_cast hlen0
    by_cases hv : colVar X j = 0
    · have hstd0 : colStd X j = 0 := by rw [colStd, hv, Real.sqrt_zero]
      have hallz : ∀ y ∈ colList (standardize X X) j, y = 0 := by
        intro y hy
        rw [hcol] at hy
        rcases List.mem_map.mp hy with ⟨x, hx, rfl⟩
        rw [stdEntry, hstd0, colVar_eq_zero X j hv x hx, sub_self, ieeeDiv_self_zero]
        rfl
      have hsum0 : (colList (standardize X X) j).sum = 0 := List.sum_eq_zero hallz
      have hmean0 : colMean (standardize X X) j = 0 := by
        rw [colMean, hsum0, zero_div]
      have hvar0 : colVar (standardize X X) j = 0 := by
        rw [colVar, hmean0]
        have h0 : ((colList (standardize X X) j).map fun x => (x - 0) ^ 2).sum = 0 :=
          List.sum_eq_zero (by
            intro y hy
            rcases List.mem_map.mp hy with ⟨x, hx, rfl⟩
            rw [hallz x hx]
            norm_num)
        rw [h0, zero_div]
      have hstdZ : colStd (standardize X X) j = 0 := by
        rw [colStd, hvar0, Real.sqrt_zero]
      intro z hz
      rw [stdEntry, hstdZ, hmean0, hallz z hz, sub_zero, ieeeDiv_self_zero]
      rfl
    · have hvpos : 0 < colVar X j := lt_of_le_of_ne (colVar_nonneg X j) (Ne.symm hv)
      have hstdpos : 0 < colStd X j := Real.sqrt_pos.mpr hvpos
      have hstdne : colStd X j ≠ 0 := ne_of_gt hstdpos
      have hsq : colStd X j ^ 2 = colVar X j := Real.sq_sqrt hvpos.le
      have hcol' : colList (standardize X X) j =
          (colList X j).map fun x => (x - colMean X j) / colStd X j := by
        rw [hcol]
        exact List.map_congr_left fun x _ => by
          rw [stdEntry, nan_to_num_div_of_ne _ _ hstdne]
      have hsumX : (colList X j).sum = (X.length : ℝ) * colMean X j := colMean_sum X j hX
      have hsumZ : (colList (standardize X X) j).sum = 0 := by
        rw [hcol', sum_map_div (colList X j) (fun x => x - colMean X j) (colStd X j),
          sum_map_sub (colList X j) (colMean X j), colList_length, hsumX, sub_self,
          zero_div]
      have hZlen : (standardize X X).length = X.length := standardize_length X X
      have hmeanZ : colMean (standardize X X) j = 0 := by
        rw [colMean, hsumZ, zero_div]
      have hvarZ : colVar (standardize X X) j = 1 := by
        rw [colVar, hmeanZ]
        have e1 : ((colList (standardize X X) j).map fun x => (x - 0) ^ 2).sum =
            ((colList X j).map fun x => (x - colMean X j) ^ 2 / colVar X j).sum := by
          rw [hcol', List.map_map]
          refine congrArg List.sum (List.map_congr_left ?_)
          intro x _
          simp only [Function.comp]
          rw [sub_zero, div_pow, hsq]
        rw [e1, sum_map_div (colList X j) (fun x => (x - colMean X j) ^ 2) (colVar X j)]
        have hv_sum : ((colList X j).map fun x => (x - colMean X j) ^ 2).sum =
            colVar X j * (X.length : ℝ) := by
          rw [colVar, div_mul_cancel₀ _ hlenR]
        rw [hv_sum, hZlen, mul_comm, mul_div_assoc, div_self hv, mul_one, div_self hlenR]
      have hstdZ1 : colStd (standardize X X) j = 1 := by
        rw [colStd, hvarZ, Real.sqrt_one]
      intro z hz
      rw [stdEntry, hstdZ1, hmeanZ, nan_to_num_div_of_ne _ _ one_ne_zero, sub_zero,
        div_one]

theorem standardize_self_fixed (X : Mat) (n : ℕ) (hR : ∀ r ∈ X, r.length = n) :
    standardize (standardize X X) (standardize X X) = standardize X X := by
  have hrows : ∀ r ∈ standardize X X,
      (r.enum.map fun p => stdEntry (standardize X X) p.1 p.2) = id r := by
    intro r hr
    have hrlen : r.length = n := by
      rcases List.mem_map.mp hr with ⟨r₀, hr₀, rfl⟩
      simpa [List.enum_length] using hR r₀ hr₀
    apply List.ext_getElem
    · simp [List.enum_length, id]
    · intro j h1 h2
      have h2' : j < r.length := by simpa using h2
      have hget : (r.enum.map fun p => stdEntry (standardize X X) p.1 p.2)[j] =
          stdEntry (standardize X X) j r[j] := by
        simp [List.getElem_map, List.enum_eq_zip_range, List.getElem_zip]
      rw [hget]
      have hmem : r[j] ∈ colList (standardize X X) j := by
        rw [colList]
        exact List.mem_map.mpr ⟨r, hr, List.getD_eq_getElem r 0 h2'⟩
      exact standardize_col_self X n j hR (by rw [← hrlen]; exact h2') _ hmem
  show ((standardize X X).map fun r => r.enum.map fun p =>
      stdEntry (standardize X X) p.1 p.2) = standardize X X
  rw [List.map_congr_left hrows]
  exact List.map_id _

/-- C7 (counterexample): the claim says a transform re-applied with the same
fixed reference statistics is idempotent. With train statistics from
[[0],[2]] (min 0, max 2), scaling [[2]] once gives [[1]], scaling that result
again with the same statistics gives [[1/2]] ≠ [[1]]. -/
theorem C7_cex :
    min_max_scale [[(0:ℝ)], [2]] (min_max_scale [[(0:ℝ)], [2]] [[(2:ℝ)]]) ≠
      min_max_scale [[(0:ℝ)], [2]] [[(2:ℝ)]] := by
  have hm : npMin [[(0:ℝ)], [2]] = 0 := by
    simp [npMin, listMin]
  have hM : npMax [[(0:ℝ)], [2]] = 2 := by
    simp [npMax, listMax]
  have h1 : entry (min_max_scale [[(0:ℝ)], [2]] [[(2:ℝ)]]) 0 0 = 1 := by
    rw [entry_minmax _ _ 0 0 (by norm_num) (by simp), hm, hM]
    rw [show entry [[(2:ℝ)]] 0 0 = 2 by simp [entry]]
    rw [nan_to_num_div_of_ne _ _ (by norm_num)]
    norm_num
  have h2 : entry (min_max_scale [[(0:ℝ)], [2]]
      (min_max_scale [[(0:ℝ)], [2]] [[(2:ℝ)]])) 0 0 = 1 / 2 := by
    rw [entry_minmax _ _ 0 0 (by simp [min_max_scale]) (by simp [min_max_scale]), hm, hM, h1]
    rw [nan_to_num_div_of_ne _ _ (by norm_num)]
    norm_num
  intro heq
  have h3 := congrArg (fun M => entry M 0 0) heq
  simp only at h3
  rw [h1, h2] at h3
  norm_num at h3

/-- C7 (amended): re-applying a transform with the same fixed reference
statistics is NOT idempotent in general; the transforms are idempotent when
the repeated application recomputes its reference statistics from its input:
min-max scaling a min-max-scaled (by its own stats) matrix by its own stats,
and standardizing an own-stats-standardized matrix by its own stats, leave
the matrix unchanged. -/
theorem C7_amended :
    (∀ X : Mat, X.flatten ≠ [] →
      min_max_scale (min_max_scale X X) (min_max_scale X X) = min_max_scale X X) ∧
    (∀ (X : Mat) (n : ℕ), (∀ r ∈ X, r.length = n) →
      standardize (standardize X X) (standardize X X) = standardize X X) :=
  ⟨minmax_self_fixed, standardize_self_fixed⟩

/-- C7 (witness): both self-statistics fixed points at concrete matrices. -/
theorem C7_wit :
    min_max_scale (min_max_scale [[(0:ℝ)], [2]] [[(0:ℝ)], [2]])
        (min_max_scale [[(0:ℝ)], [2]] [[(0:ℝ)], [2]]) =
      min_max_scale [[(0:ℝ)], [2]] [[(0:ℝ)], [2]] ∧
    standardize (standardize [[(1:ℝ)], [3]] [[(1:ℝ)], [3]])
        (standardize [[(1:ℝ)], [3]] [[(1:ℝ)], [3]]) =
      standardize [[(1:ℝ)], [3]] [[(1:ℝ)], [3]] :=
  ⟨C7_amended.1 [[(0:ℝ)], [2]] (by simp),
   C7_amended.2 [[(1:ℝ)], [3]] 1 (by simp)⟩

/-- C2 (witness): the amended statement at train [[1],[1]] (zero variance):
the train entry standardizes to 0 and the test entry 2 becomes `floatMax`. -/
theorem C2_wit :
    entry (standardize [[(1:ℝ)], [1]] [[(1:ℝ)], [1]]) 0 0 = 0 ∧
    entry (standardize [[(1:ℝ)], [1]] [[(2:ℝ)]]) 0 0 = floatMax := by
  have h := C2_amended [[(1:ℝ)], [1]] [[(2:ℝ)]] 0 (by norm_num [colVar, colMean, colList])
  refine ⟨h.1 0 (by norm_num) (by simp), ?_⟩
  refine (h.2 0 (by norm_num) (by simp)).2.1 ?_
  rw [show entry [[(2:ℝ)]] 0 0 = 2 by simp [entry]]
  rw [show colMean [[(1:ℝ)], [1]] 0 = 1 by norm_num [colMean, colList]]
  norm_num

end
